import Mathlib

/-!
Verification of the wiring-puzzle generator core
(`Minigames/Wire Puzzle/Foundry/puzzle_core.py`).

The Python core is embedded shallowly:

* `random.Random(seed)` is modelled by `Rng`, an abstract deterministic
  stream of raw draws (the Mersenne–Twister itself is not modelled; the
  stream is a parameter, and `RandomSource` maps each seed to a stream);
* Python sets of permutation indices become `Finset ℕ`;
* `itertools.permutations(range(n))` becomes `permsList n`, the standard
  selection-order (hence lexicographic) enumeration of the permutations;
* the module-level `_PERM_CACHE` becomes an explicit cache value threaded
  through `perms_cached`;
* fallible generation returns `Except NoPuzzle Puzzle`.
-/

namespace WirePuzzle

/-- Model of Python's seeded PRNG `random.Random`: an abstract stream of raw
natural-number draws together with the position of the next draw.  All
randomised operations of the source (`sample`, `choice`, `shuffle`) consume
draws from the stream in order, so a fixed stream determines every outcome. -/
structure Rng where
  stream : Nat → Nat
  pos : Nat

/-- A family of draw streams indexed by the seed, modelling the map
`seed ↦ random.Random(seed)`.  Python guarantees this map is a pure
function of the seed; the family itself is abstract here. -/
structure RandomSource where
  stream : Option Int → Nat → Nat

/-- `random.Random(seed)`: the generator positioned at the start of the
stream determined by `seed`. -/
def mkRng (R : RandomSource) (seed : Option Int) : Rng :=
  ⟨R.stream seed, 0⟩

/-- One raw draw, advancing the generator. -/
def Rng.draw (g : Rng) : Nat × Rng :=
  (g.stream g.pos, ⟨g.stream, g.pos + 1⟩)

/-- Model of `rng.choice(seq)`: the element at a draw-dependent index. -/
def Rng.choiceD {α : Type} (g : Rng) (l : List α) (d : α) : α × Rng :=
  let p := g.draw
  (l.getD (p.1 % l.length) d, p.2)

/-- Model of `rng.sample(seq, 2)`: two distinct elements obtained by a draw
followed by a draw from the remainder. -/
def Rng.sample2 (g : Rng) (l : List String) : (String × String) × Rng :=
  let pa := g.choiceD l ""
  let pb := pa.2.choiceD (l.erase pa.1) ""
  ((pa.1, pb.1), pb.2)

/-- Model of `rng.sample(seq, 3)`. -/
def Rng.sample3 (g : Rng) (l : List String) : (String × String × String) × Rng :=
  let pa := g.choiceD l ""
  let pb := pa.2.choiceD (l.erase pa.1) ""
  let pc := pb.2.choiceD ((l.erase pa.1).erase pb.1) ""
  ((pa.1, pb.1, pc.1), pc.2)

/-- Model of `rng.choice([True, False])`. -/
def Rng.coin (g : Rng) : Bool × Rng :=
  let p := g.draw
  (p.1 % 2 == 0, p.2)

/-- Model of `rng.shuffle`: select a draw-dependent element, remove it, and
recurse on the rest.  The fuel argument is the length of the list, making the
recursion structural. -/
def shuffleAux (stream : Nat → Nat) : Nat → Nat → List Nat → List Nat
  | 0, _, _ => []
  | k + 1, pos, l =>
    if l = [] then []
    else
      let i := stream pos % l.length
      l.getD i 0 :: shuffleAux stream k (pos + 1) (l.eraseIdx i)

/-- `rng.shuffle(l)`: a seeded permutation of `l`, consuming one draw per
element. -/
def Rng.shuffleList (g : Rng) (l : List Nat) : List Nat × Rng :=
  (shuffleAux g.stream l.length g.pos l, ⟨g.stream, g.pos + l.length⟩)

/-! ### Data model (`puzzle_core.py` constants, `Rule`, board descriptors) -/

/-- `CABLE_COLOURS` from the source. -/
def CABLE_COLOURS : List String :=
  ["Black", "Blue", "White", "Red", "Orange", "Green"]

/-- A rule: human-readable text paired with a boolean predicate over a
wiring (the source's frozen dataclass `Rule`). -/
structure Rule where
  text : String
  func : List Nat → Bool

/-- Board descriptor: `BOARD_LAYOUTS` entry shape. -/
structure Board where
  symbols : List String
  systems : List String
  edges : Nat × Nat
  diametric : Nat

/-- The `"ring-6"` board of `BOARD_LAYOUTS`. -/
def ring6 : Board where
  symbols := ["Δ", "Ω", "Σ", "Φ", "Ψ", "Θ"]
  systems := ["Shield", "Cog", "Gravitas", "Open", "Cog", "Gravitas"]
  edges := (0, 5)
  diametric := 3

/-- `BOARD_LAYOUTS` as a keyed lookup. -/
def BOARD_LAYOUTS (key : String) : Option Board :=
  if key = "ring-6" then some ring6 else none

/-- `ci = {c: i for i, c in enumerate(CABLE_COLOURS)}`. -/
def colourIndex (c : String) : Nat := CABLE_COLOURS.indexOf c

/-! ### Helper predicates (`_left_of`, `_wrap_adj`, `_ring_dist`) -/

/-- `_left_of`. -/
def left_of (a b : Nat) : Bool := a + 1 == b

/-- `_wrap_adj`: `abs(a - b) in (1, n - 1)`. -/
def wrap_adj (a b n : Nat) : Bool :=
  ((a : Int) - b).natAbs == 1 || ((a : Int) - b).natAbs == n - 1

/-- `_ring_dist`: shortest distance on a ring of size `n`. -/
def ring_dist (a b n : Nat) : Nat :=
  min (((a : Int) - b).natAbs) (n - ((a : Int) - b).natAbs)

/-- `w[ci[c]]`: the socket of colour `c` under wiring `w`. -/
def wAt (ci : String → Nat) (w : List Nat) (c : String) : Nat :=
  w.getD (ci c) 0

/-- `systems[p]`. -/
def sysAt (systems : List String) (p : Nat) : String :=
  systems.getD p ""

/-- Alphabetically least element of a list of strings (`min(ci, key=str)`). -/
def strListMin : List String → String
  | [] => ""
  | h :: t => t.foldl (fun a c => if c < a then c else a) h

/-- Alphabetically greatest element of a list of strings (`max(ci, key=str)`). -/
def strListMax : List String → String
  | [] => ""
  | h :: t => t.foldl (fun a c => if a < c then c else a) h

/-! ### Rule pool builder (`_build_rule_pool`) -/

/-- `_build_rule_pool(board, ci, rng)`: the ordered pool of eight rules, with
the randomly drawn colour parameters taken from the draw stream in the same
order as the source consumes `rng`. -/
def build_rule_pool (board : Board) (ci : String → Nat) (g : Rng) :
    List Rule × Rng :=
  let syms := board.symbols
  let systems := board.systems
  let edges := board.edges
  let n := syms.length
  let r1 : Rule :=
    { text := "Black occupies an edge socket (" ++ syms.getD edges.1 "" ++
        " or " ++ syms.getD edges.2 "" ++ ")."
      func := fun w => wAt ci w "Black" == edges.1 || wAt ci w "Black" == edges.2 }
  let non_black := CABLE_COLOURS.filter (fun c => c != "Black")
  let ps := g.sample2 non_black
  let shield_col := ps.1.1
  let grav_col := ps.1.2
  let r2 : Rule :=
    { text := shield_col ++ " connects to Shield and never neighbours " ++ grav_col ++ "."
      func := fun w =>
        sysAt systems (wAt ci w shield_col) == "Shield" &&
          !(wrap_adj (wAt ci w shield_col) (wAt ci w grav_col) n) }
  let r3 : Rule :=
    { text := grav_col ++ " connects to Gravitas and never neighbours " ++ shield_col ++ "."
      func := fun w =>
        sysAt systems (wAt ci w grav_col) == "Gravitas" &&
          !(wrap_adj (wAt ci w grav_col) (wAt ci w shield_col) n) }
  let pair_candidates := CABLE_COLOURS.filter (fun c => c != "Blue")
  let pp := ps.2.sample2 pair_candidates
  let gp1 := pp.1.1
  let gp2 := pp.1.2
  let r4 : Rule :=
    { text := "Blue sits immediately left of the Gravitas cable (" ++ gp1 ++
        " or " ++ gp2 ++ ") and is not on a Gravitas socket."
      func := fun w =>
        (left_of (wAt ci w "Blue") (wAt ci w gp1) ||
          left_of (wAt ci w "Blue") (wAt ci w gp2)) &&
          sysAt systems (wAt ci w "Blue") != "Gravitas" }
  let cog_positions := (List.range systems.length).filter
    (fun i => sysAt systems i == "Cog")
  let cs0 := cog_positions.getD 0 0
  let cs1 := cog_positions.getD 1 0
  let r5 : Rule :=
    { text := "Green occupies the Cog socket farthest from Black."
      func := fun w =>
        wAt ci w "Green" ==
          (if ring_dist cs0 (wAt ci w "Black") n > ring_dist cs1 (wAt ci w "Black") n
            then cs0 else cs1) }
  let pg := pp.2.sample2 (CABLE_COLOURS.filter (fun c => c != "Black"))
  let gA := pg.1.1
  let gB := pg.1.2
  let px := pg.2.choiceD (CABLE_COLOURS.filter (fun c => c != gA && c != gB)) ""
  let gX := px.1
  let r6 : Rule :=
    { text := gA ++ " uses the Gravitas socket not taken by " ++ gB ++
        " and neighbours neither " ++ gB ++ " nor " ++ gX ++ "."
      func := fun w =>
        sysAt systems (wAt ci w gA) == "Gravitas" &&
          sysAt systems (wAt ci w gB) == "Gravitas" &&
          wAt ci w gA != wAt ci w gB &&
          !(wrap_adj (wAt ci w gA) (wAt ci w gB) n) &&
          !(wrap_adj (wAt ci w gA) (wAt ci w gX) n) }
  let pt := px.2.sample3 CABLE_COLOURS
  let t1 := pt.1.1
  let t2 := pt.1.2.1
  let t3 := pt.1.2.2
  let r7 : Rule :=
    { text := "Among " ++ t1 ++ "/" ++ t2 ++ "/" ++ t3 ++
        ", exactly one is on a Gravitas socket."
      func := fun w =>
        ([t1, t2, t3].countP
          (fun c => sysAt systems (wAt ci w c) == "Gravitas")) == 1 }
  let first := strListMin CABLE_COLOURS
  let last := strListMax CABLE_COLOURS
  let pc := pt.2.coin
  let r8 : Rule :=
    if pc.1 then
      { text := "The alphabetically first colour sits left of the alphabetically last."
        func := fun w => decide (wAt ci w first < wAt ci w last) }
    else
      { text := "The alphabetically first colour sits right of the alphabetically last."
        func := fun w => decide (wAt ci w last < wAt ci w first) }
  ([r1, r2, r3, r4, r5, r6, r7, r8], pc.2)

/-! ### Permutation universe (`_perms` and `_PERM_CACHE`) -/

/-- Selection-order enumeration of the permutations of `l`: pick each element
in turn as the head and recurse on the rest.  On a sorted input the output is
in lexicographic order; this is the documented enumeration order of
`itertools.permutations`.  The fuel argument equals `l.length`. -/
def selPermsAux : Nat → List Nat → List (List Nat)
  | 0, _ => [[]]
  | k + 1, l =>
    (List.range l.length).flatMap fun i =>
      (selPermsAux k (l.eraseIdx i)).map (l.getD i 0 :: ·)

/-- `list(itertools.permutations(range(n)))`. -/
def permsList (n : Nat) : List (List Nat) :=
  selPermsAux n (List.range n)

/-- The module-level `_PERM_CACHE`, keyed by the ring size. -/
def PermCache : Type := Nat → Option (List (List Nat))

/-- The cache before any generation has run. -/
def emptyCache : PermCache := fun _ => none

/-- A cache is valid when every entry is the permutation list it claims to be;
this is the invariant `_PERM_CACHE` maintains. -/
def ValidCache (c : PermCache) : Prop :=
  ∀ m l, c m = some l → l = permsList m

/-- `_perms(n)`: return the cached list, or compute, store and return it. -/
def perms_cached (n : Nat) (c : PermCache) : List (List Nat) × PermCache :=
  match c n with
  | some l => (l, c)
  | none => (permsList n, fun m => if m = n then some (permsList n) else c m)

/-! ### Compatibility sets and the greedy selector -/

/-- `_precompute_rule_sets(rules, perms)`: for each rule, the set of universe
indices whose permutation satisfies it. -/
def precompute_rule_sets (rules : List Rule) (perms : List (List Nat)) :
    List (Finset Nat) :=
  rules.map fun r => (Finset.range perms.length).filter fun i => r.func (perms.getD i [])

/-- `rule_sets[i]` (every accessed index is in range in the source; the
default is never reached there). -/
def rsD (rule_sets : List (Finset Nat)) (i : Nat) : Finset Nat :=
  rule_sets.getD i ∅

/-- `sorted(compat, key=lambda j: len(rule_sets[j]))`.  Python's sort is
stable, and every `compat` list passed by the source is strictly increasing,
so the stable sort by set size coincides with sorting by the total
lexicographic order (set size, pool position) used here. -/
def sortedByCard (rule_sets : List (Finset Nat)) (compat : List Nat) : List Nat :=
  compat.insertionSort fun a b =>
    (rsD rule_sets a).card < (rsD rule_sets b).card ∨
      ((rsD rule_sets a).card = (rsD rule_sets b).card ∧ a ≤ b)

/-- The loop of `_unique_subset`: walk the sorted candidates, keep a rule
exactly when intersecting it strictly shrinks `remaining`, and return as soon
as `remaining` is the singleton of the target. -/
def uniqueLoop (sol_idx : Nat) (rule_sets : List (Finset Nat)) :
    List Nat → Finset Nat → List Nat → Option (List Nat)
  | [], _, _ => none
  | idx :: rest, remaining, chosen =>
    if sol_idx ∈ rsD rule_sets idx then
      let new := remaining ∩ rsD rule_sets idx
      if new.card < remaining.card then
        if new.card = 1 ∧ sol_idx ∈ new then some (chosen ++ [idx])
        else uniqueLoop sol_idx rule_sets rest new (chosen ++ [idx])
      else uniqueLoop sol_idx rule_sets rest remaining chosen
    else uniqueLoop sol_idx rule_sets rest remaining chosen

/-- `_unique_subset(sol_idx, compat, rule_sets, total)`. -/
def unique_subset (sol_idx : Nat) (compat : List Nat)
    (rule_sets : List (Finset Nat)) (total : Nat) : Option (List Nat) :=
  uniqueLoop sol_idx rule_sets (sortedByCard rule_sets compat) (Finset.range total) []

/-- Value of the running intersection `set(range(total)) ∩ ⋂ (rule_sets[j], j ∈ S)`
computed by the padding loop of `_solve_fast` (the source's early exit on an
empty intersection does not change the value). -/
def interAll (rule_sets : List (Finset Nat)) (S : Finset Nat) (total : Nat) :
    Finset Nat :=
  (Finset.range total).filter fun p => ∀ j ∈ S, p ∈ rsD rule_sets j

/-- The padding loop of `_solve_fast`: add each not-yet-visible useful rule
whose addition keeps the intersection exactly the target singleton; stop once
`min_rules` visible rules are reached. -/
def padLoop (sol_idx : Nat) (rule_sets : List (Finset Nat)) (total min_rules : Nat) :
    List Nat → Finset Nat → Finset Nat
  | [], visible => visible
  | idx :: rest, visible =>
    if idx ∈ visible then padLoop sol_idx rule_sets total min_rules rest visible
    else
      let inter := interAll rule_sets (insert idx visible) total
      let visible' := if inter.card = 1 ∧ sol_idx ∈ inter then insert idx visible else visible
      if min_rules ≤ visible'.card then visible'
      else padLoop sol_idx rule_sets total min_rules rest visible'

/-- Ascending list of the elements of a multiset, by insertion sort (the
value of Python's `sorted` on a set of integers). -/
def msAscList (m : Multiset Nat) : List Nat :=
  Quotient.liftOn m (fun l => l.insertionSort (· ≤ ·))
    (fun l1 l2 h =>
      List.eq_of_perm_of_sorted
        ((List.perm_insertionSort _ l1).trans (h.trans (List.perm_insertionSort _ l2).symm))
        (List.sorted_insertionSort _ l1) (List.sorted_insertionSort _ l2))

/-- `sorted(visible)` for a finite set of pool positions. -/
def finsetAscList (s : Finset Nat) : List Nat :=
  msAscList s.val

/-- `_solve_fast(sol_idx, compat, rule_sets, min_rules, rng, total)`.  The
single `rng.choice(extras)` draw on the success path is modelled by
`hintDraw`, the next raw draw of the generator. -/
def solve_fast (sol_idx : Nat) (compat : List Nat) (rule_sets : List (Finset Nat))
    (min_rules hintDraw total : Nat) : Option (List Nat × Option Nat) :=
  let useful := compat.filter fun i =>
    decide (0 < (rsD rule_sets i).card ∧ (rsD rule_sets i).card < total)
  match unique_subset sol_idx useful rule_sets total with
  | none => none
  | some base =>
    let visible := padLoop sol_idx rule_sets total min_rules useful base.toFinset
    if visible.card < min_rules then none
    else
      let extras := useful.filter fun i => decide (i ∉ visible)
      some (finsetAscList visible,
        if extras.isEmpty then none else some (extras.getD (hintDraw % extras.length) 0))

/-! ### The generation driver (`generate_puzzle`) -/

/-- The `_NoPuzzle` error carrying its message. -/
structure NoPuzzle where
  msg : String

/-- The error value raised when no target admits a sufficient rule subset. -/
def noPuzzle : NoPuzzle :=
  ⟨"No wiring obeys enough consistent rules — check rule set"⟩

/-- The generator's output record: board, solution wiring, visible rules in
order, and the optional hint rule. -/
structure Puzzle where
  board : Board
  solution : List Nat
  rules : List Rule
  hint : Option Rule

/-- A placeholder rule for out-of-range pool accesses (never reached by the
driver, whose indices all come from `range rule_sets.length`). -/
def defaultRule : Rule := ⟨"", fun _ => false⟩

/-- Whether `max_checks is not None and tries >= max_checks`. -/
def budgetHit (max_checks : Option Nat) (tries : Nat) : Bool :=
  match max_checks with
  | none => false
  | some m => m ≤ tries

/-- The retry loop of `generate_puzzle`: over a shuffled list of candidate
target indices, try each within the `max_checks` budget; raise `noPuzzle`
when the budget or the candidate order is exhausted. -/
def gen_loop (board : Board) (pool : List Rule) (perms : List (List Nat))
    (rule_sets : List (Finset Nat)) (min_rules hintDraw : Nat)
    (max_checks : Option Nat) : List Nat → Nat → Except NoPuzzle Puzzle
  | [], _ => .error noPuzzle
  | sol_idx :: rest, tries =>
    if budgetHit max_checks tries then .error noPuzzle
    else
      let compat := (List.range rule_sets.length).filter fun i =>
        decide (sol_idx ∈ rsD rule_sets i)
      match solve_fast sol_idx compat rule_sets min_rules hintDraw perms.length with
      | none =>
        gen_loop board pool perms rule_sets min_rules hintDraw max_checks rest (tries + 1)
      | some (vis, hint_idx) =>
        .ok
          { board := board
            solution := perms.getD sol_idx []
            rules := vis.map fun i => pool.getD i defaultRule
            hint := hint_idx.map fun i => pool.getD i defaultRule }

/-- The body of `generate_puzzle` after the rule pool and the permutation
list are in hand: shuffle the candidate order, then run the retry loop. -/
def generate_core (board : Board) (pool : List Rule) (g : Rng)
    (min_rules : Nat) (max_checks : Option Nat) (perms : List (List Nat)) :
    Except NoPuzzle Puzzle :=
  let rule_sets := precompute_rule_sets pool perms
  let pi := g.shuffleList (List.range perms.length)
  gen_loop board pool perms rule_sets min_rules (pi.2.stream pi.2.pos) max_checks pi.1 0

/-- `generate_puzzle(seed=…, board_key=…, min_rules=…, max_checks=…)` for a
given board: build the rule pool from the seeded generator, obtain the
permutation universe through the cache, and run the driver.  The cache state
is threaded explicitly (in the source it is the module global `_PERM_CACHE`). -/
def generate_puzzle (R : RandomSource) (seed : Option Int) (board : Board)
    (min_rules : Nat) (max_checks : Option Nat) (cache : PermCache) :
    Except NoPuzzle Puzzle × PermCache :=
  let g := mkRng R seed
  let pb := build_rule_pool board colourIndex g
  let pc := perms_cached board.symbols.length cache
  (generate_core board pb.1 pb.2 min_rules max_checks pc.1, pc.2)

/-- `generate_puzzle` with the board looked up by key; `none` models the
`KeyError` a missing key raises in the source. -/
def generate_puzzle_key (R : RandomSource) (seed : Option Int) (board_key : String)
    (min_rules : Nat) (max_checks : Option Nat) (cache : PermCache) :
    Option (Except NoPuzzle Puzzle × PermCache) :=
  (BOARD_LAYOUTS board_key).map fun board =>
    generate_puzzle R seed board min_rules max_checks cache

/-! ### Serialisation and solution checking -/

/-- The JSON-safe projection produced by `serialise_puzzle`. -/
structure SerialPuzzle where
  board : Board
  solution : List Nat
  rules : List String
  hint : Option String

/-- `serialise_puzzle(puz)`: rules and hint become their texts; the solution
tuple becomes a plain list (both embed as `List ℕ` here). -/
def serialise_puzzle (p : Puzzle) : SerialPuzzle where
  board := p.board
  solution := p.solution
  rules := p.rules.map Rule.text
  hint := p.hint.map Rule.text

/-- `check_solution(puz_or_serial, guess)`: `list(sol) == list(guess)` where
`sol` is the `"solution"` entry of either the live or the serialised puzzle
(a tuple or a list in Python, both a `List ℕ` here). -/
def check_solution (sol : List Nat) (guess : List Nat) : Bool :=
  sol == guess

/-- Number of loop iterations the driver still performs from `tries` attempts
in: all remaining candidates without a budget, `max_checks - tries` with one. -/
def triesBudget (mc : Option Nat) (tries len : Nat) : Nat :=
  match mc with
  | none => len
  | some m => m - tries

/-- The selector loop as the specification words it (§4.4 steps 2-4): visit
candidates, accept a visited rule exactly when intersecting its compatibility
set makes `remaining` strictly smaller, and stop as soon as `remaining` is
the singleton of the target. -/
def spec_selector_loop (t : Nat) (rule_sets : List (Finset Nat)) :
    List Nat → Finset Nat → List Nat → Option (List Nat)
  | [], _, _ => none
  | idx :: rest, remaining, chosen =>
    if (remaining ∩ rsD rule_sets idx).card < remaining.card then
      if remaining ∩ rsD rule_sets idx = {t} then some (chosen ++ [idx])
      else spec_selector_loop t rule_sets rest (remaining ∩ rsD rule_sets idx)
        (chosen ++ [idx])
    else spec_selector_loop t rule_sets rest remaining chosen

/-- The whole selector as the specification words it: discard rules whose
compatibility set is empty or the entire universe, visit the survivors in
ascending set size with ties broken by pool position, then run the
accept-on-strict-shrink loop. -/
def spec_selector (t : Nat) (compat : List Nat) (rule_sets : List (Finset Nat))
    (total : Nat) : Option (List Nat) :=
  spec_selector_loop t rule_sets
    (sortedByCard rule_sets (compat.filter fun i =>
      decide (rsD rule_sets i ≠ ∅ ∧ rsD rule_sets i ≠ Finset.range total)))
    (Finset.range total) []

/-- A one-rule pool over a two-socket board, used to exercise the generator
on a concrete input. -/
def demoPool : List Rule := [{ text := "demo", func := fun w => w == [0, 1] }]

/-- A draw stream that always returns `0`. -/
def demoRng : Rng := ⟨fun _ => 0, 0⟩

/-- The puzzle the driver produces from `demoPool` on the two-element
universe. -/
def demoPuzzle : Puzzle :=
  { board := ring6
    solution := [0, 1]
    rules := [{ text := "demo", func := fun w => w == [0, 1] }]
    hint := none }

/-! ### Properties of the permutation enumeration -/

theorem length_eraseIdx_of_lt {α : Type} (l : List α) (i : Nat) (h : i < l.length) :
    (l.eraseIdx i).length = l.length - 1 := by
  rw [List.length_eraseIdx]
  simp [h]

theorem getD_mem_of_lt {α : Type} (l : List α) (n : Nat) (d : α) (h : n < l.length) :
    l.getD n d ∈ l := by
  rw [List.getD_eq_getElem l d h]
  exact List.getElem_mem h

theorem selPermsAux_length (k : Nat) (l : List Nat) (h : l.length = k) :
    (selPermsAux k l).length = k.factorial := by
  induction k generalizing l with
  | zero => simp [selPermsAux]
  | succ k ih =>
    rw [selPermsAux, List.length_flatMap]
    have hall : ∀ x ∈ List.map
        (List.length ∘ fun i => (selPermsAux k (l.eraseIdx i)).map (l.getD i 0 :: ·))
        (List.range l.length), x = k.factorial := by
      intro x hx
      rw [List.mem_map] at hx
      obtain ⟨i, hi, rfl⟩ := hx
      rw [List.mem_range] at hi
      simp only [Function.comp_apply, List.length_map]
      exact ih _ (by rw [length_eraseIdx_of_lt l i hi, h]; omega)
    rw [List.sum_eq_card_nsmul _ _ hall]
    simp [h, Nat.factorial_succ]

theorem getD_cons_eraseIdx_perm {α : Type} (d : α) :
    ∀ (l : List α) (i : Nat), i < l.length → (l.getD i d :: l.eraseIdx i).Perm l
  | _ :: _, 0, _ => by simp
  | a :: l, i + 1, h => by
    have hi : i < l.length := by simpa using h
    have ih := getD_cons_eraseIdx_perm d l i hi
    simp only [List.getD_cons_succ, List.eraseIdx_cons_succ]
    exact (List.Perm.swap a (l.getD i d) (l.eraseIdx i)).trans (ih.cons a)

theorem mem_selPermsAux (k : Nat) (l t : List Nat) (h : l.length = k) :
    t ∈ selPermsAux k l ↔ t.Perm l := by
  induction k generalizing l t with
  | zero =>
    have hl : l = [] := List.length_eq_zero.mp h
    subst hl
    simp [selPermsAux, List.perm_nil]
  | succ k ih =>
    rw [selPermsAux, List.mem_flatMap]
    constructor
    · rintro ⟨i, hi, ht⟩
      rw [List.mem_range] at hi
      rw [List.mem_map] at ht
      obtain ⟨t', ht', rfl⟩ := ht
      have hlen : (l.eraseIdx i).length = k := by
        rw [length_eraseIdx_of_lt l i hi, h]; omega
      have hperm : t'.Perm (l.eraseIdx i) := (ih _ _ hlen).mp ht'
      exact (hperm.cons (l.getD i 0)).trans (getD_cons_eraseIdx_perm 0 l i hi)
    · intro hp
      cases t with
      | nil =>
        have hlen := hp.length_eq
        rw [h] at hlen
        simp at hlen
      | cons x t' =>
        have hx : x ∈ l := hp.mem_iff.mp (List.mem_cons_self x t')
        obtain ⟨i, hi, hget⟩ := List.mem_iff_getElem.mp hx
        refine ⟨i, List.mem_range.mpr hi, ?_⟩
        rw [List.mem_map]
        refine ⟨t', ?_, ?_⟩
        · have hlen : (l.eraseIdx i).length = k := by
            rw [length_eraseIdx_of_lt l i hi, h]; omega
          rw [ih _ _ hlen]
          have h1 : (x :: t').Perm (x :: l.eraseIdx i) := by
            refine hp.trans ?_
            have h2 := getD_cons_eraseIdx_perm 0 l i hi
            rw [List.getD_eq_getElem l 0 hi, hget] at h2
            exact h2.symm
          exact h1.cons_inv
        · rw [List.getD_eq_getElem l 0 hi, hget]

theorem selPermsAux_pairwise_lex (k : Nat) (l : List Nat) (h : l.length = k)
    (hs : l.Pairwise (· < ·)) :
    (selPermsAux k l).Pairwise (List.Lex (· < ·)) := by
  induction k generalizing l with
  | zero => simp [selPermsAux]
  | succ k ih =>
    rw [selPermsAux, List.pairwise_flatMap]
    constructor
    · intro i hi
      rw [List.mem_range] at hi
      refine List.Pairwise.map _ (fun t1 t2 h12 => List.Lex.cons h12) ?_
      refine ih (l.eraseIdx i) (by rw [length_eraseIdx_of_lt l i hi, h]; omega) ?_
      exact List.Pairwise.sublist (List.eraseIdx_sublist l i) hs
    · rw [List.pairwise_iff_getElem]
      intro i j hi hj hij
      simp only [List.length_range] at hi hj
      simp only [List.getElem_range]
      intro x hx y hy
      rw [List.mem_map] at hx hy
      obtain ⟨tx, _, rfl⟩ := hx
      obtain ⟨ty, _, rfl⟩ := hy
      refine List.Lex.rel ?_
      rw [List.getD_eq_getElem l 0 hi, List.getD_eq_getElem l 0 hj]
      exact List.pairwise_iff_getElem.mp hs i j hi hj hij

theorem lex_lt_irrefl : ∀ t : List Nat, ¬ List.Lex (· < ·) t t := by
  intro t ht
  induction t with
  | nil => cases ht
  | cons a t ih =>
    cases ht with
    | cons h => exact ih h
    | rel h => exact lt_irrefl a h

theorem permsList_length (n : Nat) : (permsList n).length = n.factorial :=
  selPermsAux_length n (List.range n) (List.length_range n)

theorem mem_permsList (n : Nat) (t : List Nat) :
    t ∈ permsList n ↔ t.Perm (List.range n) :=
  mem_selPermsAux n (List.range n) t (List.length_range n)

theorem permsList_pairwise (n : Nat) :
    (permsList n).Pairwise (List.Lex (· < ·)) :=
  selPermsAux_pairwise_lex n (List.range n) (List.length_range n)
    (List.pairwise_lt_range n)

theorem permsList_nodup (n : Nat) : (permsList n).Nodup := by
  refine (permsList_pairwise n).imp ?_
  intro a b hab he
  subst he
  exact lex_lt_irrefl a hab

/-! ### The shuffle produces a permutation -/

theorem shuffleAux_perm (stream : Nat → Nat) :
    ∀ (k pos : Nat) (l : List Nat), l.length = k →
      (shuffleAux stream k pos l).Perm l
  | 0, _, l, h => by
    have hl : l = [] := List.length_eq_zero.mp h
    subst hl
    simp [shuffleAux]
  | k + 1, pos, l, h => by
    rw [shuffleAux]
    have hne : ¬ l = [] := by
      intro he
      subst he
      simp at h
    rw [if_neg hne]
    have hpos : 0 < l.length := List.length_pos.mpr hne
    have hi : stream pos % l.length < l.length := Nat.mod_lt _ hpos
    have hlen : (l.eraseIdx (stream pos % l.length)).length = k := by
      rw [length_eraseIdx_of_lt _ _ hi, h]
      omega
    exact ((shuffleAux_perm stream k (pos + 1) _ hlen).cons _).trans
      (getD_cons_eraseIdx_perm 0 l _ hi)

theorem shuffleList_perm (g : Rng) (l : List Nat) : (g.shuffleList l).1.Perm l :=
  shuffleAux_perm g.stream l.length g.pos l rfl

/-! ### Properties of the permutation cache -/

theorem perms_cached_fst (n : Nat) (c : PermCache) (h : ValidCache c) :
    (perms_cached n c).1 = permsList n := by
  unfold perms_cached
  rcases hc : c n with _ | l
  · simp
  · simpa using h n l hc

theorem perms_cached_valid (n : Nat) (c : PermCache) (h : ValidCache c) :
    ValidCache (perms_cached n c).2 := by
  unfold perms_cached
  rcases hc : c n with _ | l
  · intro m t hmt
    simp only at hmt
    by_cases hm : m = n
    · subst hm
      rw [if_pos rfl] at hmt
      exact (Option.some_inj.mp hmt).symm
    · rw [if_neg hm] at hmt
      exact h m t hmt
  · exact h

theorem perms_cached_hit (n : Nat) (c : PermCache) (h : ValidCache c) :
    (perms_cached n c).2 n = some (permsList n) := by
  unfold perms_cached
  rcases hc : c n with _ | l
  · simp
  · show c n = some (permsList n)
    rw [hc, h n l hc]

theorem perms_cached_idem (n : Nat) (c : PermCache) (h : ValidCache c) :
    perms_cached n (perms_cached n c).2 = (permsList n, (perms_cached n c).2) := by
  have hh := perms_cached_hit n c h
  generalize hc2 : (perms_cached n c).2 = c2 at hh ⊢
  unfold perms_cached
  rw [hh]

/-! ### Invariants of the greedy selector and the padding loop -/

theorem mem_interAll {rs : List (Finset Nat)} {S : Finset Nat} {total j : Nat} :
    j ∈ interAll rs S total ↔ j < total ∧ ∀ i ∈ S, j ∈ rsD rs i := by
  simp [interAll, Finset.mem_filter, Finset.mem_range]

theorem interAll_empty (rs : List (Finset Nat)) (total : Nat) :
    interAll rs ∅ total = Finset.range total := by
  ext j
  simp [mem_interAll, Finset.mem_range]

theorem interAll_insert (rs : List (Finset Nat)) (S : Finset Nat) (a total : Nat) :
    interAll rs (insert a S) total = interAll rs S total ∩ rsD rs a := by
  ext j
  simp only [mem_interAll, Finset.mem_inter, Finset.mem_insert, or_imp, forall_and,
    forall_eq]
  tauto

theorem interAll_append_singleton (rs : List (Finset Nat)) (chosen : List Nat)
    (a total : Nat) :
    interAll rs (chosen ++ [a]).toFinset total
      = interAll rs chosen.toFinset total ∩ rsD rs a := by
  rw [show (chosen ++ [a]).toFinset = insert a chosen.toFinset by
    ext i
    simp [List.mem_toFinset, List.mem_append, or_comm]]
  exact interAll_insert rs chosen.toFinset a total

theorem singleton_of_card_one_mem {S : Finset Nat} {a : Nat}
    (h1 : S.card = 1) (h2 : a ∈ S) : S = {a} := by
  obtain ⟨b, hb⟩ := Finset.card_eq_one.mp h1
  subst hb
  rw [Finset.mem_singleton] at h2
  subst h2
  rfl

theorem uniqueLoop_sound (sol : Nat) (rs : List (Finset Nat)) (total : Nat)
    (P : Nat → Prop) :
    ∀ (order : List Nat) (remaining : Finset Nat) (chosen ch : List Nat),
      (∀ i ∈ order, P i) →
      (∀ i ∈ chosen, P i ∧ sol ∈ rsD rs i) →
      remaining = interAll rs chosen.toFinset total →
      uniqueLoop sol rs order remaining chosen = some ch →
      interAll rs ch.toFinset total = {sol} ∧ ∀ i ∈ ch, P i ∧ sol ∈ rsD rs i
  | [], remaining, chosen, ch => by
    intro _ _ _ h
    simp [uniqueLoop] at h
  | idx :: rest, remaining, chosen, ch => by
    intro horder hchosen hrem h
    have hPidx : P idx := horder idx (List.mem_cons_self idx rest)
    have horder' : ∀ i ∈ rest, P i := fun i hi => horder i (List.mem_cons_of_mem idx hi)
    rw [uniqueLoop] at h
    by_cases hg : sol ∈ rsD rs idx
    · rw [if_pos hg] at h
      simp only at h
      by_cases hsh : (remaining ∩ rsD rs idx).card < remaining.card
      · rw [if_pos hsh] at h
        have hnext : ∀ i ∈ chosen ++ [idx], P i ∧ sol ∈ rsD rs i := by
          intro i hi
          rcases List.mem_append.mp hi with hi | hi
          · exact hchosen i hi
          · rw [List.mem_singleton] at hi
            subst hi
            exact ⟨hPidx, hg⟩
        have hrem' : remaining ∩ rsD rs idx
            = interAll rs (chosen ++ [idx]).toFinset total := by
          rw [interAll_append_singleton, ← hrem]
        by_cases hone : (remaining ∩ rsD rs idx).card = 1 ∧ sol ∈ remaining ∩ rsD rs idx
        · rw [if_pos hone] at h
          obtain rfl := Option.some_inj.mp h
          refine ⟨?_, hnext⟩
          rw [← hrem']
          exact singleton_of_card_one_mem hone.1 hone.2
        · rw [if_neg hone] at h
          exact uniqueLoop_sound sol rs total P rest _ _ ch horder' hnext hrem' h
      · rw [if_neg hsh] at h
        exact uniqueLoop_sound sol rs total P rest _ _ ch horder' hchosen hrem h
    · rw [if_neg hg] at h
      exact uniqueLoop_sound sol rs total P rest _ _ ch horder' hchosen hrem h

theorem unique_subset_sound (sol : Nat) (compat : List Nat)
    (rs : List (Finset Nat)) (total : Nat) (ch : List Nat)
    (h : unique_subset sol compat rs total = some ch) :
    interAll rs ch.toFinset total = {sol} ∧
      ∀ i ∈ ch, i ∈ compat ∧ sol ∈ rsD rs i := by
  refine uniqueLoop_sound sol rs total (· ∈ compat) (sortedByCard rs compat)
    (Finset.range total) [] ch ?_ ?_ ?_ h
  · intro i hi
    exact (List.perm_insertionSort _ compat).mem_iff.mp hi
  · intro i hi
    cases hi
  · rw [show ([] : List Nat).toFinset = ∅ from rfl, interAll_empty]

/-! ### The ascending enumeration of a finite set -/

theorem mem_msAscList (m : Multiset Nat) (a : Nat) : a ∈ msAscList m ↔ a ∈ m := by
  refine Quotient.inductionOn m ?_
  intro l
  show a ∈ l.insertionSort (· ≤ ·) ↔ a ∈ (l : Multiset Nat)
  rw [Multiset.mem_coe]
  exact (List.perm_insertionSort _ l).mem_iff

theorem msAscList_length (m : Multiset Nat) : (msAscList m).length = Multiset.card m := by
  refine Quotient.inductionOn m ?_
  intro l
  show (l.insertionSort (· ≤ ·)).length = Multiset.card (l : Multiset Nat)
  rw [Multiset.coe_card]
  exact (List.perm_insertionSort _ l).length_eq

theorem msAscList_sorted (m : Multiset Nat) : List.Sorted (· ≤ ·) (msAscList m) := by
  refine Quotient.inductionOn m ?_
  intro l
  exact List.sorted_insertionSort _ l

theorem msAscList_nodup (m : Multiset Nat) (h : m.Nodup) : (msAscList m).Nodup := by
  revert h
  refine Quotient.inductionOn m ?_
  intro l h
  show (l.insertionSort (· ≤ ·)).Nodup
  exact ((List.perm_insertionSort _ l).nodup_iff).mpr (Multiset.coe_nodup.mp h)

theorem finsetAscList_sorted_lt (s : Finset Nat) :
    List.Sorted (· < ·) (finsetAscList s) :=
  (msAscList_sorted s.val).lt_of_le (msAscList_nodup s.val s.nodup)

theorem finsetAscList_length (s : Finset Nat) : (finsetAscList s).length = s.card :=
  msAscList_length s.val

theorem mem_finsetAscList (s : Finset Nat) (a : Nat) :
    a ∈ finsetAscList s ↔ a ∈ s := by
  rw [Finset.mem_def]
  exact mem_msAscList s.val a

theorem finsetAscList_toFinset (s : Finset Nat) : (finsetAscList s).toFinset = s := by
  ext a
  rw [List.mem_toFinset]
  exact mem_finsetAscList s a

theorem padLoop_sound (sol : Nat) (rs : List (Finset Nat)) (total mr : Nat)
    (P : Nat → Prop) :
    ∀ (order : List Nat) (visible : Finset Nat),
      (∀ i ∈ order, P i) →
      interAll rs visible total = {sol} →
      (∀ i ∈ visible, P i ∧ sol ∈ rsD rs i) →
      interAll rs (padLoop sol rs total mr order visible) total = {sol} ∧
        ∀ i ∈ padLoop sol rs total mr order visible, P i ∧ sol ∈ rsD rs i
  | [], visible => by
    intro _ hinv hmem
    rw [padLoop]
    exact ⟨hinv, hmem⟩
  | idx :: rest, visible => by
    intro horder hinv hmem
    have hPidx : P idx := horder idx (List.mem_cons_self idx rest)
    have horder' : ∀ i ∈ rest, P i := fun i hi => horder i (List.mem_cons_of_mem idx hi)
    rw [padLoop]
    by_cases hin : idx ∈ visible
    · rw [if_pos hin]
      exact padLoop_sound sol rs total mr P rest visible horder' hinv hmem
    · rw [if_neg hin]
      simp only
      by_cases hacc : (interAll rs (insert idx visible) total).card = 1 ∧
          sol ∈ interAll rs (insert idx visible) total
      · rw [if_pos hacc]
        have hinv' : interAll rs (insert idx visible) total = {sol} :=
          singleton_of_card_one_mem hacc.1 hacc.2
        have hmem' : ∀ i ∈ insert idx visible, P i ∧ sol ∈ rsD rs i := by
          intro i hi
          rcases Finset.mem_insert.mp hi with rfl | hi
          · exact ⟨hPidx, (mem_interAll.mp hacc.2).2 i (Finset.mem_insert_self i visible)⟩
          · exact hmem i hi
        by_cases hstop : mr ≤ (insert idx visible).card
        · rw [if_pos hstop]
          exact ⟨hinv', hmem'⟩
        · rw [if_neg hstop]
          exact padLoop_sound sol rs total mr P rest _ horder' hinv' hmem'
      · rw [if_neg hacc]
        by_cases hstop : mr ≤ visible.card
        · rw [if_pos hstop]
          exact ⟨hinv, hmem⟩
        · rw [if_neg hstop]
          exact padLoop_sound sol rs total mr P rest visible horder' hinv hmem

theorem solve_fast_spec (sol : Nat) (compat : List Nat) (rs : List (Finset Nat))
    (mr draw total : Nat) (vis : List Nat) (hint : Option Nat)
    (h : solve_fast sol compat rs mr draw total = some (vis, hint)) :
    interAll rs vis.toFinset total = {sol} ∧
    (∀ i ∈ vis, i ∈ compat ∧ sol ∈ rsD rs i) ∧
    mr ≤ vis.length ∧
    List.Sorted (· < ·) vis ∧
    (∀ a, hint = some a → a ∈ compat ∧ a ∉ vis) ∧
    ((compat.filter fun i =>
        decide (0 < (rsD rs i).card ∧ (rsD rs i).card < total)).filter
          (fun i => decide (i ∉ vis.toFinset)) = [] → hint = none) := by
  rw [solve_fast] at h
  simp only at h
  rcases hu : unique_subset sol (compat.filter fun i =>
      decide (0 < (rsD rs i).card ∧ (rsD rs i).card < total)) rs total with _ | base
  · rw [hu] at h
    cases h
  rw [hu] at h
  simp only at h
  by_cases hlow : (padLoop sol rs total mr
      (compat.filter fun i => decide (0 < (rsD rs i).card ∧ (rsD rs i).card < total))
      base.toFinset).card < mr
  · rw [if_pos hlow] at h
    cases h
  rw [if_neg hlow] at h
  obtain ⟨hvis, hhint⟩ := Prod.mk.injEq .. ▸ Option.some_inj.mp h
  obtain ⟨hbase1, hbase2⟩ := unique_subset_sound sol _ rs total base hu
  obtain ⟨hpad1, hpad2⟩ := padLoop_sound sol rs total mr
    (· ∈ compat.filter fun i => decide (0 < (rsD rs i).card ∧ (rsD rs i).card < total))
    (compat.filter fun i => decide (0 < (rsD rs i).card ∧ (rsD rs i).card < total))
    base.toFinset (fun i hi => hi) hbase1
    (fun i hi => hbase2 i (List.mem_toFinset.mp hi))
  have hsortfin : vis.toFinset = padLoop sol rs total mr
      (compat.filter fun i => decide (0 < (rsD rs i).card ∧ (rsD rs i).card < total))
      base.toFinset := by
    rw [← hvis]
    exact finsetAscList_toFinset _
  have hmemvis : ∀ i ∈ vis, i ∈ compat ∧ sol ∈ rsD rs i := by
    intro i hi
    have hi2 : i ∈ vis.toFinset := List.mem_toFinset.mpr hi
    rw [hsortfin] at hi2
    obtain ⟨hiu, hisol⟩ := hpad2 i hi2
    exact ⟨(List.mem_filter.mp hiu).1, hisol⟩
  refine ⟨by rw [hsortfin]; exact hpad1, hmemvis, ?_, ?_, ?_, ?_⟩
  · rw [← hvis, finsetAscList_length]
    omega
  · rw [← hvis]
    exact finsetAscList_sorted_lt _
  · intro a ha
    rw [ha] at hhint
    by_cases hemp : ((compat.filter fun i =>
        decide (0 < (rsD rs i).card ∧ (rsD rs i).card < total)).filter
          (fun i => decide (i ∉ padLoop sol rs total mr
            (compat.filter fun i => decide (0 < (rsD rs i).card ∧ (rsD rs i).card < total))
            base.toFinset))).isEmpty
    · rw [if_pos hemp] at hhint
      cases hhint
    · rw [if_neg hemp] at hhint
      have hlenpos : 0 < ((compat.filter fun i =>
          decide (0 < (rsD rs i).card ∧ (rsD rs i).card < total)).filter
            (fun i => decide (i ∉ padLoop sol rs total mr
              (compat.filter fun i => decide (0 < (rsD rs i).card ∧ (rsD rs i).card < total))
              base.toFinset))).length := by
        refine List.length_pos.mpr ?_
        intro he
        rw [he] at hemp
        simp at hemp
      have hamem := getD_mem_of_lt ((compat.filter fun i =>
          decide (0 < (rsD rs i).card ∧ (rsD rs i).card < total)).filter
            (fun i => decide (i ∉ padLoop sol rs total mr
              (compat.filter fun i => decide (0 < (rsD rs i).card ∧ (rsD rs i).card < total))
              base.toFinset))) (draw % ((compat.filter fun i =>
          decide (0 < (rsD rs i).card ∧ (rsD rs i).card < total)).filter
            (fun i => decide (i ∉ padLoop sol rs total mr
              (compat.filter fun i => decide (0 < (rsD rs i).card ∧ (rsD rs i).card < total))
              base.toFinset))).length) 0 (Nat.mod_lt _ hlenpos)
      rw [Option.some_inj.mp hhint] at hamem
      obtain ⟨hau, hanv⟩ := List.mem_filter.mp hamem
      refine ⟨(List.mem_filter.mp hau).1, ?_⟩
      intro hav
      have hmem2 : a ∈ vis.toFinset := List.mem_toFinset.mpr hav
      rw [hsortfin] at hmem2
      exact (of_decide_eq_true hanv) hmem2
  · intro hempty
    rw [hsortfin] at hempty
    rw [hempty] at hhint
    simpa using hhint.symm

/-! ### Inversion of the generation driver -/

theorem gen_loop_ok (board : Board) (pool : List Rule) (perms : List (List Nat))
    (rs : List (Finset Nat)) (mr draw : Nat) (mc : Option Nat) :
    ∀ (order : List Nat) (tries : Nat) (p : Puzzle),
      gen_loop board pool perms rs mr draw mc order tries = .ok p →
      ∃ sol vis hint,
        solve_fast sol ((List.range rs.length).filter fun i =>
          decide (sol ∈ rsD rs i)) rs mr draw perms.length = some (vis, hint) ∧
        p = { board := board
              solution := perms.getD sol []
              rules := vis.map fun i => pool.getD i defaultRule
              hint := hint.map fun i => pool.getD i defaultRule }
  | [], tries, p => by
    intro h
    simp [gen_loop] at h
  | sol_idx :: rest, tries, p => by
    intro h
    rw [gen_loop] at h
    by_cases hb : budgetHit mc tries = true
    · rw [if_pos hb] at h
      cases h
    · rw [if_neg hb] at h
      simp only at h
      rcases hs : solve_fast sol_idx ((List.range rs.length).filter fun i =>
          decide (sol_idx ∈ rsD rs i)) rs mr draw perms.length with _ | vh
      · rw [hs] at h
        exact gen_loop_ok board pool perms rs mr draw mc rest (tries + 1) p h
      · rw [hs] at h
        simp only at h
        refine ⟨sol_idx, vh.1, vh.2, ?_, ?_⟩
        · rw [hs]
        · cases h
          rfl

/-! ### The precomputed rule sets describe the pool's predicates -/

theorem rsD_out_of_range (rs : List (Finset Nat)) (i : Nat) (h : rs.length ≤ i) :
    rsD rs i = ∅ := by
  unfold rsD
  exact List.getD_eq_default rs ∅ h

theorem lt_length_of_mem_rsD {rs : List (Finset Nat)} {i j : Nat}
    (h : j ∈ rsD rs i) : i < rs.length := by
  by_contra hge
  rw [rsD_out_of_range rs i (Nat.le_of_not_lt hge)] at h
  cases h

theorem rsD_precompute (pool : List Rule) (perms : List (List Nat)) (i : Nat)
    (hi : i < pool.length) :
    rsD (precompute_rule_sets pool perms) i
      = (Finset.range perms.length).filter
          fun q => (pool.getD i defaultRule).func (perms.getD q []) := by
  unfold rsD precompute_rule_sets
  have hi2 : i < (pool.map fun r =>
      (Finset.range perms.length).filter fun q => r.func (perms.getD q [])).length := by
    simpa using hi
  rw [List.getD_eq_getElem _ ∅ hi2, List.getElem_map, List.getD_eq_getElem pool defaultRule hi]

theorem precompute_length (pool : List Rule) (perms : List (List Nat)) :
    (precompute_rule_sets pool perms).length = pool.length := by
  simp [precompute_rule_sets]

theorem mem_rsD_precompute (pool : List Rule) (perms : List (List Nat)) (i j : Nat)
    (hi : i < pool.length) :
    j ∈ rsD (precompute_rule_sets pool perms) i ↔
      j < perms.length ∧ (pool.getD i defaultRule).func (perms.getD j []) = true := by
  rw [rsD_precompute pool perms i hi]
  simp [Finset.mem_filter, Finset.mem_range, and_comm]

/-! ### A filter that keeps exactly one element -/

theorem filter_eq_singleton_of_unique {α : Type} (l : List α) (p : α → Bool) (a : α)
    (hnd : l.Nodup) (ha : a ∈ l) (hp : ∀ x ∈ l, p x = true ↔ x = a) :
    l.filter p = [a] := by
  induction l with
  | nil => cases ha
  | cons b t ih =>
    rw [List.nodup_cons] at hnd
    rcases List.mem_cons.mp ha with rfl | hat
    · rw [List.filter_cons_of_pos ((hp a (List.mem_cons_self a t)).mpr rfl)]
      have ht : t.filter p = [] := by
        rw [List.filter_eq_nil_iff]
        intro x hx hpx
        exact hnd.1 (((hp x (List.mem_cons_of_mem a hx)).mp hpx) ▸ hx)
      rw [ht]
    · have hb : p b = false := by
        rcases hpb : p b with _ | _
        · rfl
        · exact absurd ((hp b (List.mem_cons_self b t)).mp hpb ▸ hat) hnd.1
      rw [List.filter_cons_of_neg (by simp [hb])]
      exact ih hnd.2 hat (fun x hx => hp x (List.mem_cons_of_mem b hx))

/-! ### Soundness of a successful generation run -/

theorem generate_core_ok (board : Board) (pool : List Rule) (g : Rng)
    (mr : Nat) (mc : Option Nat) (n : Nat) (p : Puzzle)
    (h : generate_core board pool g mr mc (permsList n) = .ok p) :
    ∃ sol vis hint,
      sol < (permsList n).length ∧
      p.solution = (permsList n).getD sol [] ∧
      p.rules = vis.map (fun i => pool.getD i defaultRule) ∧
      p.hint = hint.map (fun i => pool.getD i defaultRule) ∧
      interAll (precompute_rule_sets pool (permsList n)) vis.toFinset
        (permsList n).length = {sol} ∧
      (∀ i ∈ vis, sol ∈ rsD (precompute_rule_sets pool (permsList n)) i) ∧
      mr ≤ vis.length ∧
      List.Sorted (· < ·) vis ∧
      (∀ a, hint = some a →
        sol ∈ rsD (precompute_rule_sets pool (permsList n)) a ∧ a ∉ vis) := by
  rw [generate_core] at h
  obtain ⟨sol, vis, hint, hsolve, hp⟩ :=
    gen_loop_ok board pool (permsList n) (precompute_rule_sets pool (permsList n))
      mr _ mc _ 0 p h
  obtain ⟨hinter, hmem, hlen, hsorted, hhint, _⟩ :=
    solve_fast_spec sol _ _ mr _ _ vis hint hsolve
  have hsol_lt : sol < (permsList n).length := by
    have hs : sol ∈ interAll (precompute_rule_sets pool (permsList n)) vis.toFinset
        (permsList n).length := by
      rw [hinter]
      exact Finset.mem_singleton_self sol
    exact (mem_interAll.mp hs).1
  refine ⟨sol, vis, hint, hsol_lt, ?_, ?_, ?_, hinter, ?_, hlen, hsorted, ?_⟩
  · rw [hp]
  · rw [hp]
  · rw [hp]
  · intro i hi
    have hc := (hmem i hi).1
    rw [List.mem_filter] at hc
    exact of_decide_eq_true hc.2
  · intro a ha
    obtain ⟨hac, hav⟩ := hhint a ha
    rw [List.mem_filter] at hac
    exact ⟨of_decide_eq_true hac.2, hav⟩

/-- Claim C1: for every puzzle returned by the generation driver (run, as in
`generate_puzzle`, over the permutation universe `permsList n`), exactly one
wiring of the universe satisfies all visible rules simultaneously, and it is
the puzzle's `solution` field: filtering the universe by the conjunction of
the visible rules leaves exactly `[p.solution]`. -/
theorem generate_core_unique_solution (board : Board) (pool : List Rule) (g : Rng)
    (mr : Nat) (mc : Option Nat) (n : Nat) (p : Puzzle)
    (h : generate_core board pool g mr mc (permsList n) = .ok p) :
    (permsList n).filter (fun w => p.rules.all fun r => r.func w) = [p.solution] := by
  obtain ⟨sol, vis, hint, hsol_lt, hsolution, hrules, _, hinter, hmemsol, _, _, _⟩ :=
    generate_core_ok board pool g mr mc n p h
  have hpool_lt : ∀ i ∈ vis, i < pool.length := by
    intro i hi
    have := lt_length_of_mem_rsD (hmemsol i hi)
    rwa [precompute_length pool (permsList n)] at this
  have hsolmem : p.solution ∈ permsList n := by
    rw [hsolution, List.getD_eq_getElem (permsList n) [] hsol_lt]
    exact List.getElem_mem hsol_lt
  refine filter_eq_singleton_of_unique (permsList n) _ p.solution
    (permsList_nodup n) hsolmem ?_
  intro w hw
  obtain ⟨j, hj, hwj⟩ := List.mem_iff_getElem.mp hw
  have hiff : (∀ i ∈ vis, (pool.getD i defaultRule).func w = true) ↔ j = sol := by
    constructor
    · intro hall
      have hjmem : j ∈ interAll (precompute_rule_sets pool (permsList n)) vis.toFinset
          (permsList n).length := by
        rw [mem_interAll]
        refine ⟨hj, ?_⟩
        intro i hi
        have hivis : i ∈ vis := List.mem_toFinset.mp hi
        rw [mem_rsD_precompute pool (permsList n) i j (hpool_lt i hivis)]
        refine ⟨hj, ?_⟩
        rw [List.getD_eq_getElem (permsList n) [] hj, hwj]
        exact hall i hivis
      rw [hinter, Finset.mem_singleton] at hjmem
      exact hjmem
    · intro hj_eq
      subst hj_eq
      intro i hi
      have hjmem : j ∈ interAll (precompute_rule_sets pool (permsList n)) vis.toFinset
          (permsList n).length := by
        rw [hinter]
        exact Finset.mem_singleton_self j
      have := (mem_interAll.mp hjmem).2 i (List.mem_toFinset.mpr hi)
      rw [mem_rsD_precompute pool (permsList n) i j (hpool_lt i hi)] at this
      rw [← hwj, ← List.getD_eq_getElem (permsList n) [] hj]
      exact this.2
  constructor
  · intro hall
    rw [List.all_eq_true] at hall
    have hall2 : ∀ i ∈ vis, (pool.getD i defaultRule).func w = true := by
      intro i hi
      refine hall _ ?_
      rw [hrules, List.mem_map]
      exact ⟨i, hi, rfl⟩
    have hj_eq : j = sol := hiff.mp hall2
    subst hj_eq
    rw [hsolution, List.getD_eq_getElem (permsList n) [] hsol_lt]
    exact hwj.symm
  · intro hw_eq
    have hj_eq : j = sol := by
      rw [hw_eq, hsolution] at hwj
      rw [List.getD_eq_getElem (permsList n) [] hsol_lt] at hwj
      exact (permsList_nodup n).getElem_inj_iff.mp hwj
    rw [List.all_eq_true]
    intro r hr
    rw [hrules, List.mem_map] at hr
    obtain ⟨i, hi, rfl⟩ := hr
    exact hiff.mpr hj_eq i hi

/-- Claim C2: for every puzzle returned by the driver with parameter
`min_rules`, the visible rules list has length at least `min_rules`. -/
theorem generate_core_min_rules (board : Board) (pool : List Rule) (g : Rng)
    (mr : Nat) (mc : Option Nat) (n : Nat) (p : Puzzle)
    (h : generate_core board pool g mr mc (permsList n) = .ok p) :
    mr ≤ p.rules.length := by
  obtain ⟨sol, vis, hint, _, _, hrules, _, _, _, hlen, _, _⟩ :=
    generate_core_ok board pool g mr mc n p h
  rw [hrules, List.length_map]
  exact hlen

/-- Claim C3: every visible rule's predicate evaluates true on the returned
solution, and so does the hint's predicate when a hint is present. -/
theorem generate_core_rules_sound (board : Board) (pool : List Rule) (g : Rng)
    (mr : Nat) (mc : Option Nat) (n : Nat) (p : Puzzle)
    (h : generate_core board pool g mr mc (permsList n) = .ok p) :
    (∀ r ∈ p.rules, r.func p.solution = true) ∧
      (∀ r, p.hint = some r → r.func p.solution = true) := by
  obtain ⟨sol, vis, hint, hsol_lt, hsolution, hrules, hhintmap, hinter, hmemsol,
    hlen, hsorted, hhintc⟩ := generate_core_ok board pool g mr mc n p h
  have hfunc : ∀ i, sol ∈ rsD (precompute_rule_sets pool (permsList n)) i →
      (pool.getD i defaultRule).func p.solution = true := by
    intro i hi
    have hi_lt : i < pool.length := by
      have h2 := lt_length_of_mem_rsD hi
      rwa [precompute_length pool (permsList n)] at h2
    rw [mem_rsD_precompute pool (permsList n) i sol hi_lt] at hi
    rw [hsolution]
    exact hi.2
  refine ⟨?_, ?_⟩
  · intro r hr
    rw [hrules, List.mem_map] at hr
    obtain ⟨i, hi, rfl⟩ := hr
    exact hfunc i (hmemsol i hi)
  · intro r hr
    rw [hhintmap] at hr
    rcases hint with _ | a
    · cases hr
    · rw [Option.map_some'] at hr
      obtain rfl := Option.some_inj.mp hr
      exact hfunc a (hhintc a rfl).1

/-- Claim C4: a present hint never coincides, by pool position, with any
visible rule; and when no useful rule compatible with the target remains
unselected, `_solve_fast` still succeeds and returns no hint. -/
theorem solve_fast_hint_exclusive (sol : Nat) (compat : List Nat)
    (rs : List (Finset Nat)) (mr draw total : Nat) (vis : List Nat)
    (hint : Option Nat)
    (h : solve_fast sol compat rs mr draw total = some (vis, hint)) :
    (∀ a, hint = some a → a ∉ vis) ∧
    ((compat.filter fun i =>
        decide (0 < (rsD rs i).card ∧ (rsD rs i).card < total)).filter
          (fun i => decide (i ∉ vis.toFinset)) = [] → hint = none) := by
  obtain ⟨_, _, _, _, hh, hnone⟩ := solve_fast_spec sol compat rs mr draw total vis hint h
  exact ⟨fun a ha => (hh a ha).2, hnone⟩

/-- Claim C10: the visible-rule list `_solve_fast` returns is
`sorted(visible)`: strictly ascending pool positions, independent of the
greedy acceptance order. -/
theorem solve_fast_visible_sorted (sol : Nat) (compat : List Nat)
    (rs : List (Finset Nat)) (mr draw total : Nat) (vis : List Nat)
    (hint : Option Nat)
    (h : solve_fast sol compat rs mr draw total = some (vis, hint)) :
    List.Sorted (· < ·) vis :=
  (solve_fast_spec sol compat rs mr draw total vis hint h).2.2.2.1

/-- Witness for C1 at a concrete input. -/
theorem generate_core_unique_solution_witness :
    generate_core ring6 demoPool demoRng 1 none (permsList 2) = .ok demoPuzzle ∧
    (permsList 2).filter (fun w => demoPuzzle.rules.all fun r => r.func w)
      = [demoPuzzle.solution] :=
  ⟨rfl, generate_core_unique_solution ring6 demoPool demoRng 1 none 2 demoPuzzle rfl⟩

/-- Witness for C2 at a concrete input. -/
theorem generate_core_min_rules_witness :
    generate_core ring6 demoPool demoRng 1 none (permsList 2) = .ok demoPuzzle ∧
    1 ≤ demoPuzzle.rules.length :=
  ⟨rfl, generate_core_min_rules ring6 demoPool demoRng 1 none 2 demoPuzzle rfl⟩

/-- Witness for C3 at a concrete input. -/
theorem generate_core_rules_sound_witness :
    generate_core ring6 demoPool demoRng 1 none (permsList 2) = .ok demoPuzzle ∧
    ∀ r ∈ demoPuzzle.rules, r.func demoPuzzle.solution = true :=
  ⟨rfl, (generate_core_rules_sound ring6 demoPool demoRng 1 none 2 demoPuzzle rfl).1⟩

/-- Witness for C4 at a concrete input (the hint, rule 2, is not visible). -/
theorem solve_fast_hint_exclusive_witness :
    solve_fast 0 [0, 1, 2] [{0}, {0, 1}, {0, 2}] 2 0 3 = some ([0, 1], some 2) ∧
    (2 : Nat) ∉ [0, 1] :=
  ⟨by decide, (solve_fast_hint_exclusive 0 [0, 1, 2] [{0}, {0, 1}, {0, 2}] 2 0 3
    [0, 1] (some 2) (by decide)).1 2 rfl⟩

/-- Witness for C10 at a concrete input in which the greedy acceptance order
is `[1, 0]` but the returned list is the ascending `[0, 1]`. -/
theorem solve_fast_visible_sorted_witness :
    solve_fast 0 [0, 1] [{0, 1}, {0}] 2 0 3 = some ([0, 1], none) ∧
    List.Sorted (· < ·) [0, 1] :=
  ⟨by decide, solve_fast_visible_sorted 0 [0, 1] [{0, 1}, {0}] 2 0 3 [0, 1] none (by decide)⟩

/-! ### The selector matches the specification's wording -/

theorem useful_filter_eq_spec (compat : List Nat)
    (rs : List (Finset Nat)) (total : Nat)
    (hsub : ∀ i ∈ compat, rsD rs i ⊆ Finset.range total) :
    compat.filter (fun i => decide (0 < (rsD rs i).card ∧ (rsD rs i).card < total))
      = compat.filter (fun i =>
          decide (rsD rs i ≠ ∅ ∧ rsD rs i ≠ Finset.range total)) := by
  refine List.filter_congr ?_
  intro i hi
  rw [decide_eq_decide]
  have hs := hsub i hi
  constructor
  · rintro ⟨h1, h2⟩
    refine ⟨Finset.nonempty_iff_ne_empty.mp (Finset.card_pos.mp h1), ?_⟩
    intro he
    rw [he, Finset.card_range] at h2
    exact lt_irrefl total h2
  · rintro ⟨h1, h2⟩
    refine ⟨Finset.card_pos.mpr (Finset.nonempty_iff_ne_empty.mpr h1), ?_⟩
    have hle : (rsD rs i).card ≤ total := by
      have hc := Finset.card_le_card hs
      rwa [Finset.card_range] at hc
    rcases lt_or_eq_of_le hle with hlt | heq
    · exact hlt
    · refine absurd (Finset.eq_of_subset_of_card_le hs ?_) h2
      rw [Finset.card_range]
      exact le_of_eq heq.symm

theorem uniqueLoop_eq_specLoop (t : Nat) (rs : List (Finset Nat)) :
    ∀ (order : List Nat) (remaining : Finset Nat) (chosen : List Nat),
      (∀ i ∈ order, t ∈ rsD rs i) →
      uniqueLoop t rs order remaining chosen
        = spec_selector_loop t rs order remaining chosen
  | [], _, _ => fun _ => rfl
  | idx :: rest, remaining, chosen => by
    intro h
    have hidx : t ∈ rsD rs idx := h idx (List.mem_cons_self idx rest)
    have hrest : ∀ i ∈ rest, t ∈ rsD rs i :=
      fun i hi => h i (List.mem_cons_of_mem idx hi)
    rw [uniqueLoop, spec_selector_loop, if_pos hidx]
    simp only
    by_cases hsh : (remaining ∩ rsD rs idx).card < remaining.card
    · rw [if_pos hsh, if_pos hsh]
      by_cases hone : remaining ∩ rsD rs idx = {t}
      · rw [if_pos (by rw [hone]; exact ⟨Finset.card_singleton t, Finset.mem_singleton_self t⟩),
          if_pos hone]
      · rw [if_neg (fun hc => hone (singleton_of_card_one_mem hc.1 hc.2)), if_neg hone]
        exact uniqueLoop_eq_specLoop t rs rest _ _ hrest
    · rw [if_neg hsh, if_neg hsh]
      exact uniqueLoop_eq_specLoop t rs rest _ _ hrest

/-- Claim C5: the greedy selector stage of `_solve_fast` (discard rules whose
compatibility set has size `0` or `total`, then run `_unique_subset`) computes
exactly the selector the specification describes: discard tautological or
impossible rules, visit the survivors in ascending compatibility-set size with
ties broken by pool position, and accept a visited rule exactly when
intersecting it strictly shrinks the remaining candidate set.  The hypotheses
hold at every call site: every rule in `compat` contains the target, and every
compatibility set is a set of universe indices. -/
theorem unique_subset_matches_spec (t : Nat) (compat : List Nat)
    (rs : List (Finset Nat)) (total : Nat)
    (hcompat : ∀ i ∈ compat, t ∈ rsD rs i)
    (hsub : ∀ i ∈ compat, rsD rs i ⊆ Finset.range total) :
    unique_subset t (compat.filter fun i =>
        decide (0 < (rsD rs i).card ∧ (rsD rs i).card < total)) rs total
      = spec_selector t compat rs total := by
  unfold unique_subset spec_selector
  rw [useful_filter_eq_spec compat rs total hsub]
  refine uniqueLoop_eq_specLoop t rs _ _ _ ?_
  intro i hi
  have hmem : i ∈ compat.filter (fun i =>
      decide (rsD rs i ≠ ∅ ∧ rsD rs i ≠ Finset.range total)) :=
    (List.perm_insertionSort _ _).mem_iff.mp hi
  exact hcompat i (List.mem_filter.mp hmem).1

/-- Witness for C5 at a concrete input. -/
theorem unique_subset_matches_spec_witness :
    (∀ i ∈ [0], (0 : Nat) ∈ rsD [{0}] i) ∧
    (∀ i ∈ [0], rsD [{0}] i ⊆ Finset.range 2) ∧
    unique_subset 0 ([0].filter fun i =>
        decide (0 < (rsD [{0}] i).card ∧ (rsD [{0}] i).card < 2)) [{0}] 2
      = spec_selector 0 [0] [{0}] 2 :=
  ⟨by decide, by decide,
    unique_subset_matches_spec 0 [0] [{0}] 2 (by decide) (by decide)⟩

/-! ### Characterisation of the driver's failure -/

theorem gen_loop_error_iff (board : Board) (pool : List Rule)
    (perms : List (List Nat)) (rs : List (Finset Nat)) (mr draw : Nat)
    (mc : Option Nat) :
    ∀ (order : List Nat) (tries : Nat),
      gen_loop board pool perms rs mr draw mc order tries = .error noPuzzle ↔
        ∀ sol ∈ order.take (triesBudget mc tries order.length),
          solve_fast sol ((List.range rs.length).filter fun i =>
            decide (sol ∈ rsD rs i)) rs mr draw perms.length = none
  | [], tries => by
    simp [gen_loop]
  | sol_idx :: rest, tries => by
    rw [gen_loop]
    rcases mc with _ | m
    · rw [if_neg (by simp [budgetHit])]
      simp only
      rcases hs : solve_fast sol_idx ((List.range rs.length).filter fun i =>
          decide (sol_idx ∈ rsD rs i)) rs mr draw perms.length with _ | ⟨vis, hint_idx⟩
      · show (gen_loop board pool perms rs mr draw none rest (tries + 1)
            = Except.error noPuzzle) ↔ _
        rw [gen_loop_error_iff board pool perms rs mr draw none rest (tries + 1)]
        simp only [triesBudget]
        rw [List.take_length, List.take_length, List.forall_mem_cons]
        exact ⟨fun hall => ⟨hs, hall⟩, fun hall => hall.2⟩
      · constructor
        · intro hcon
          exact Except.noConfusion hcon
        · intro hall
          have hmem : sol_idx ∈ (sol_idx :: rest).take
              (triesBudget none tries (sol_idx :: rest).length) := by
            simp [triesBudget]
          have hcon := hall sol_idx hmem
          rw [hs] at hcon
          cases hcon
    · by_cases hbt : m ≤ tries
      · rw [if_pos (by simp [budgetHit, hbt])]
        constructor
        · intro _ sol hsol
          have hz : triesBudget (some m) tries (sol_idx :: rest).length = 0 := by
            simp [triesBudget]
            omega
          rw [hz] at hsol
          simp at hsol
        · intro _
          rfl
      · rw [if_neg (by simp [budgetHit, hbt])]
        simp only
        have hsplit : triesBudget (some m) tries (sol_idx :: rest).length
            = (triesBudget (some m) (tries + 1) rest.length) + 1 := by
          simp [triesBudget]
          omega
        rcases hs : solve_fast sol_idx ((List.range rs.length).filter fun i =>
            decide (sol_idx ∈ rsD rs i)) rs mr draw perms.length with _ | ⟨vis, hint_idx⟩
        · show (gen_loop board pool perms rs mr draw (some m) rest (tries + 1)
              = Except.error noPuzzle) ↔ _
          rw [gen_loop_error_iff board pool perms rs mr draw (some m) rest (tries + 1)]
          rw [hsplit, List.take_succ_cons, List.forall_mem_cons]
          exact ⟨fun hall => ⟨hs, hall⟩, fun hall => hall.2⟩
        · constructor
          · intro hcon
            exact Except.noConfusion hcon
          · intro hall
            have hmem : sol_idx ∈ (sol_idx :: rest).take
                (triesBudget (some m) tries (sol_idx :: rest).length) := by
              rw [hsplit, List.take_succ_cons]
              exact List.mem_cons_self _ _
            have hcon := hall sol_idx hmem
            rw [hs] at hcon
            cases hcon

/-- Claim C8: the driver fails with the `noPuzzle` error exactly when every
candidate target tried within the `max_checks` budget (the whole shuffled
candidate order when `max_checks` is `None`) fails the selector-and-padding
stage.  In particular a single failing target never raises: any success
within the budget yields a puzzle, and each inner failure just advances to
the next candidate. -/
theorem generate_core_error_iff (board : Board) (pool : List Rule) (g : Rng)
    (mr : Nat) (mc : Option Nat) (perms : List (List Nat)) :
    generate_core board pool g mr mc perms = .error noPuzzle ↔
      ∀ sol ∈ (g.shuffleList (List.range perms.length)).1.take
          (triesBudget mc 0 (g.shuffleList (List.range perms.length)).1.length),
        solve_fast sol
          ((List.range (precompute_rule_sets pool perms).length).filter fun i =>
            decide (sol ∈ rsD (precompute_rule_sets pool perms) i))
          (precompute_rule_sets pool perms) mr
          ((g.shuffleList (List.range perms.length)).2.stream
            (g.shuffleList (List.range perms.length)).2.pos)
          perms.length = none := by
  rw [generate_core]
  exact gen_loop_error_iff board pool perms (precompute_rule_sets pool perms) mr
    ((g.shuffleList (List.range perms.length)).2.stream
      (g.shuffleList (List.range perms.length)).2.pos) mc
    (g.shuffleList (List.range perms.length)).1 0

/-- Witness for C8 at a concrete input: with a zero-attempt budget the driver
raises `noPuzzle`. -/
theorem generate_core_error_iff_witness :
    generate_core ring6 demoPool demoRng 1 (some 0) (permsList 2)
      = .error noPuzzle :=
  (generate_core_error_iff ring6 demoPool demoRng 1 (some 0) (permsList 2)).mpr
    (by intro sol hsol; simp [triesBudget] at hsol)

/-- Claim C7: `check_solution` returns true exactly when the guess equals the
stored solution element-wise; it accepts the solution itself, rejects every
guess differing from it, and is agnostic between the live puzzle's solution
and the serialised one's. -/
theorem check_solution_correct (p : Puzzle) (guess : List Nat) :
    (check_solution p.solution guess = true ↔ guess = p.solution) ∧
    check_solution (serialise_puzzle p).solution guess
      = check_solution p.solution guess ∧
    check_solution p.solution p.solution = true ∧
    (guess ≠ p.solution → check_solution p.solution guess = false) := by
  unfold check_solution serialise_puzzle
  refine ⟨?_, rfl, ?_, ?_⟩
  · rw [beq_iff_eq]
    exact eq_comm
  · exact beq_self_eq_true p.solution
  · intro hne
    rw [beq_eq_false_iff_ne]
    exact fun hc => hne hc.symm

/-- Witness for C7 at a concrete input. -/
theorem check_solution_correct_witness :
    check_solution demoPuzzle.solution demoPuzzle.solution = true ∧
    ([1, 0] ≠ demoPuzzle.solution) ∧
    check_solution demoPuzzle.solution [1, 0] = false :=
  ⟨(check_solution_correct demoPuzzle [1, 0]).2.2.1, by decide,
    (check_solution_correct demoPuzzle [1, 0]).2.2.2 (by decide)⟩

/-- Claim C9: `_perms(n)` yields the ordered sequence of all `n!` distinct
permutations of `[0..n)` in strictly increasing lexicographic order, and the
module cache memoises it: with a valid cache the call returns `permsList n`
and leaves a valid cache, and any later call with the same `n` returns the
very same cached list with the cache unchanged. -/
theorem perms_cached_spec (n : Nat) (c : PermCache) (h : ValidCache c) :
    (perms_cached n c).1 = permsList n ∧
    ValidCache (perms_cached n c).2 ∧
    perms_cached n (perms_cached n c).2 = (permsList n, (perms_cached n c).2) ∧
    (permsList n).length = n.factorial ∧
    (permsList n).Pairwise (List.Lex (· < ·)) ∧
    (permsList n).Nodup ∧
    (∀ t, t ∈ permsList n ↔ t.Perm (List.range n)) :=
  ⟨perms_cached_fst n c h, perms_cached_valid n c h, perms_cached_idem n c h,
    permsList_length n, permsList_pairwise n, permsList_nodup n,
    fun t => mem_permsList n t⟩

/-- Witness for C9 at a concrete input. -/
theorem perms_cached_spec_witness :
    ValidCache emptyCache ∧
    (perms_cached 3 emptyCache).1 = permsList 3 ∧
    (permsList 3).length = Nat.factorial 3 := by
  have hv : ValidCache emptyCache := fun m l hml => Option.noConfusion hml
  obtain ⟨h1, _, _, h4, _⟩ := perms_cached_spec 3 emptyCache hv
  exact ⟨hv, h1, h4⟩

/-- Claim C6: generation is deterministic in `(seed, board, min_rules,
max_checks)`: with the seeded generator modelled as a pure draw stream, two
successive calls of `generate_puzzle` with identical arguments — the second
seeing the permutation cache the first left behind — return the same result
(identical rule objects in the same order, identical solution tuple,
identical hint), for every valid starting cache. -/
theorem generate_puzzle_deterministic (R : RandomSource) (seed : Option Int)
    (board : Board) (mr : Nat) (mc : Option Nat) (cache : PermCache)
    (h : ValidCache cache) :
    (generate_puzzle R seed board mr mc
        ((generate_puzzle R seed board mr mc cache).2)).1
      = (generate_puzzle R seed board mr mc cache).1 := by
  show generate_core board (build_rule_pool board colourIndex (mkRng R seed)).1
      (build_rule_pool board colourIndex (mkRng R seed)).2 mr mc
      (perms_cached board.symbols.length
        (perms_cached board.symbols.length cache).2).1
    = generate_core board (build_rule_pool board colourIndex (mkRng R seed)).1
      (build_rule_pool board colourIndex (mkRng R seed)).2 mr mc
      (perms_cached board.symbols.length cache).1
  rw [perms_cached_fst board.symbols.length cache h,
    perms_cached_fst board.symbols.length (perms_cached board.symbols.length cache).2
      (perms_cached_valid board.symbols.length cache h)]

/-- Witness for C6 at a concrete input. -/
theorem generate_puzzle_deterministic_witness :
    ValidCache emptyCache ∧
    (generate_puzzle ⟨fun _ _ => 0⟩ (some 42) ring6 5 (some 0)
        ((generate_puzzle ⟨fun _ _ => 0⟩ (some 42) ring6 5 (some 0) emptyCache).2)).1
      = (generate_puzzle ⟨fun _ _ => 0⟩ (some 42) ring6 5 (some 0) emptyCache).1 := by
  have hv : ValidCache emptyCache := fun m l hml => Option.noConfusion hml
  exact ⟨hv, generate_puzzle_deterministic ⟨fun _ _ => 0⟩ (some 42) ring6 5
    (some 0) emptyCache hv⟩

end WirePuzzle
